import Mathlib

/-!
# Verification of `flatten` (singular-labs/flatten, `src/flatten.go`)

A shallow embedding of the Go package `flatten`, which converts nested
JSON-like values (maps, slices, scalars) into flat one-dimensional maps or
lists, together with proofs about the embedded functions.

Modelling choices:
* Go's `interface{}` values reachable by this package are modelled by the
  inductive type `Value`: maps (`vMap`, as association lists in iteration
  order), slices (`vArr`), and the scalar dynamic types that
  `allPrimitives` inspects (`string`, `int32`, `int64`, `float32`,
  `float64`, `json.Number`), plus `bool` (`vBool`) and a catch-all
  `vOther` for every other dynamic type (structs, nil, plain `int`, ...).
  Floating-point values and `vOther` values carry their `fmt` `%v`
  rendering as an opaque string, since the package never computes with
  them, only stores and prints them.
* Go's mutable `map[string]interface{}` accumulator is modelled as an
  association list threaded through the traversal; `mapSet` is Go map
  assignment (overwrite the existing binding, otherwise append).
* A Go function that mutates an accumulator and returns an `error` is
  modelled as returning the pair (accumulator, `Option String`); `none`
  is Go's `nil` error.  Call sites that discard the error in Go discard
  the `Option` component here.
* `SeparatorStyle` is a Go `int`-backed enum; any integer value can be
  passed, so it is modelled as a wrapped `Int`.
-/

/-- Go dynamic values traversed by the package (JSON types: maps, slices
and scalars, plus a catch-all for any other dynamic type). -/
inductive Value : Type where
  | vStr : String → Value
  | vBool : Bool → Value
  | vInt32 : Int → Value
  | vInt64 : Int → Value
  | vFloat32 : String → Value
  | vFloat64 : String → Value
  | vNumber : String → Value
  | vArr : List Value → Value
  | vMap : List (String × Value) → Value
  | vOther : String → Value

/-- `type SeparatorStyle int`: an `int`-backed enum, so any integer is a
possible value; `0` is the reserved unset value. -/
structure SeparatorStyle where
  val : Int
deriving DecidableEq, Repr

/-- `DotStyle SeparatorStyle = iota`-successor 1. -/
def DotStyle : SeparatorStyle := ⟨1⟩

/-- `SlashStyle` = 2. -/
def SlashStyle : SeparatorStyle := ⟨2⟩

/-- `RailsStyle` = 3. -/
def RailsStyle : SeparatorStyle := ⟨3⟩

/-- `var NotValidInputError = errors.New("Not a valid input: map or slice")`. -/
def NotValidInputError : String := "Not a valid input: map or slice"

/-- `fmt.Sprintf("%v", v)` for the dynamic types the traversals can print.
Only non-map, non-slice values are ever rendered by the package; the
composite cases are unreachable from the traversals and are given the
empty rendering. -/
def render : Value → String
  | .vStr s => s
  | .vBool b => if b then "true" else "false"
  | .vInt32 n => toString n
  | .vInt64 n => toString n
  | .vFloat32 s => s
  | .vFloat64 s => s
  | .vNumber s => s
  | .vOther s => s
  | .vArr _ => ""
  | .vMap _ => ""

/-- `func allPrimitives(arr []interface{}) bool`: true iff every element's
dynamic type is one of `string, int32, int64, float32, float64,
json.Number` (note: `bool` is not in the list). -/
def allPrimitives : List Value → Bool
  | [] => true
  | item :: rest =>
    match item with
    | .vStr _ | .vInt32 _ | .vInt64 _ | .vFloat32 _ | .vFloat64 _ | .vNumber _ =>
        allPrimitives rest
    | _ => false

/-- `func enkey(top bool, prefix, subkey string, style SeparatorStyle) string`.
The `switch style` has no `default` branch: a style outside
`{DotStyle, SlashStyle, RailsStyle}` leaves `key` equal to the prefix. -/
def enkey (top : Bool) (pfx subkey : String) (style : SeparatorStyle) : String :=
  if top then
    pfx ++ subkey
  else if style = DotStyle then
    pfx ++ "." ++ subkey
  else if style = SlashStyle then
    pfx ++ "/" ++ subkey
  else if style = RailsStyle then
    pfx ++ "[" ++ subkey ++ "]"
  else
    pfx

/-- Go map assignment `m[k] = v` on the association-list model: overwrite
an existing binding for `k`, otherwise append a new one. -/
def mapSet (m : List (String × Value)) (k : String) (v : Value) : List (String × Value) :=
  if (m.map Prod.fst).contains k then
    m.map fun p => if p.1 = k then (k, v) else p
  else
    m ++ [(k, v)]

mutual

/-- `func flatten(top bool, flatMap map[string]interface{}, nested interface{},
prefix string, style SeparatorStyle) error`, returning the mutated
accumulator together with the error. -/
def flatten (top : Bool) (flatMap : List (String × Value)) (nested : Value)
    (pfx : String) (style : SeparatorStyle) : List (String × Value) × Option String :=
  match nested with
  | .vMap kvs => (flattenMapGo top flatMap kvs pfx style, none)
  | .vArr xs => (flattenArrGo top flatMap xs 0 pfx style, none)
  | _ => (flatMap, some NotValidInputError)
termination_by (sizeOf nested, 0)

/-- The `assign` closure of `flatten`: store scalars and all-primitive
slices directly, recurse into maps and other slices. -/
def flattenAssign (flatMap : List (String × Value)) (newKey : String) (v : Value)
    (style : SeparatorStyle) : List (String × Value) × Option String :=
  match v with
  | .vMap kvs => flatten false flatMap (.vMap kvs) newKey style
  | .vArr xs =>
    if allPrimitives xs then (mapSet flatMap newKey (.vArr xs), none)
    else flatten false flatMap (.vArr xs) newKey style
  | v => (mapSet flatMap newKey v, none)
termination_by (sizeOf v, 1)

/-- The `range` loop of `flatten` over a map's entries.  The error result
of `assign(newKey, v)` is discarded at the call site, exactly as in the
source. -/
def flattenMapGo (top : Bool) (flatMap : List (String × Value))
    (kvs : List (String × Value)) (pfx : String) (style : SeparatorStyle) :
    List (String × Value) :=
  match kvs with
  | [] => flatMap
  | (k, v) :: rest =>
    flattenMapGo top (flattenAssign flatMap (enkey top pfx k style) v style).1 rest pfx style
termination_by (sizeOf kvs, 0)

/-- The `range` loop of `flatten` over a slice's elements (index `i`
rendered with `strconv.Itoa`); the error of `assign` is discarded. -/
def flattenArrGo (top : Bool) (flatMap : List (String × Value)) (xs : List Value)
    (i : Nat) (pfx : String) (style : SeparatorStyle) : List (String × Value) :=
  match xs with
  | [] => flatMap
  | v :: rest =>
    flattenArrGo top (flattenAssign flatMap (enkey top pfx (toString i) style) v style).1
      rest (i + 1) pfx style
termination_by (sizeOf xs, 0)

end

/-- `func Flatten(nested map[string]interface{}, prefix string,
style SeparatorStyle) (map[string]interface{}, error)`: run the traversal
on a fresh accumulator; on error return no map. -/
def Flatten (nested : List (String × Value)) (pfx : String) (style : SeparatorStyle) :
    Except String (List (String × Value)) :=
  match flatten true [] (.vMap nested) pfx style with
  | (flatmap, none) => .ok flatmap
  | (_, some e) => .error e

mutual

/-- `func flattenAll(top bool, result *[]string, nested interface{},
prefix string, style SeparatorStyle) error`, returning the mutated result
slice together with the error. -/
def flattenAll (top : Bool) (result : List String) (nested : Value)
    (pfx : String) (style : SeparatorStyle) : List String × Option String :=
  match nested with
  | .vMap kvs => (faMapGo top result kvs pfx style, none)
  | .vArr xs => (faArrGo top result xs 0 pfx style, none)
  | _ => (result, some NotValidInputError)
termination_by (sizeOf nested, 0)

/-- The `assign` closure of `flattenAll`: recurse into every map and every
slice; append `newKey + "." + %v(v)` for anything else. -/
def faAssign (result : List String) (newKey : String) (v : Value)
    (style : SeparatorStyle) : List String × Option String :=
  match v with
  | .vMap kvs => flattenAll false result (.vMap kvs) newKey style
  | .vArr xs => flattenAll false result (.vArr xs) newKey style
  | v => (result ++ [newKey ++ "." ++ render v], none)
termination_by (sizeOf v, 1)

/-- The `range` loop of `flattenAll` over a map's entries; the error of
`assign` is discarded at the call site. -/
def faMapGo (top : Bool) (result : List String) (kvs : List (String × Value))
    (pfx : String) (style : SeparatorStyle) : List String :=
  match kvs with
  | [] => result
  | (k, v) :: rest =>
    faMapGo top (faAssign result (enkey top pfx k style) v style).1 rest pfx style
termination_by (sizeOf kvs, 0)

/-- The `range` loop of `flattenAll` over a slice's elements; the error of
`assign` is discarded at the call site. -/
def faArrGo (top : Bool) (result : List String) (xs : List Value) (i : Nat)
    (pfx : String) (style : SeparatorStyle) : List String :=
  match xs with
  | [] => result
  | v :: rest =>
    faArrGo top (faAssign result (enkey top pfx (toString i) style) v style).1
      rest (i + 1) pfx style
termination_by (sizeOf xs, 0)

end

/-- `func FlattenAll(nested interface{}, prefix string, style SeparatorStyle,
sorted bool) ([]string, error)`: run the traversal on a fresh slice, then
`sort.Strings` when requested. -/
def FlattenAll (nested : Value) (pfx : String) (style : SeparatorStyle)
    (sorted : Bool) : Except String (List String) :=
  match flattenAll true [] nested pfx style with
  | (result, none) => .ok (if sorted then result.mergeSort (· ≤ ·) else result)
  | (_, some e) => .error e

/-- `func FlattenString(nestedstr, prefix string, style SeparatorStyle)
(string, error)`.  `json.Unmarshal` / `json.Marshal` are the external
serialization collaborators (spec §6) and are passed in abstractly: a
failing unmarshal is `none`. -/
def FlattenString (unmarshal : String → Option (List (String × Value)))
    (marshal : List (String × Value) → String)
    (nestedstr pfx : String) (style : SeparatorStyle) : Except String String :=
  match unmarshal nestedstr with
  | none => .error "json unmarshal error"
  | some nested =>
    match Flatten nested pfx style with
    | .error e => .error e
    | .ok flatmap => .ok (marshal flatmap)

/-! ## Pure characterizations of the traversals

The Go traversals thread a mutable accumulator.  To reason about them we
give pure functions that enumerate, in visitation order, the (key, value)
pairs the map variant stores and the strings the list variant appends,
and prove the traversals equal to folding the accumulator over these
enumerations. -/

/-- Folding Go map assignment over a list of entries. -/
def mapSetList (fm : List (String × Value)) (l : List (String × Value)) :
    List (String × Value) :=
  l.foldl (fun m p => mapSet m p.1 p.2) fm

/-- True iff the dynamic type is `map[string]interface{}` or
`[]interface{}` — the two cases the traversal switches recurse into. -/
def Value.isComposite : Value → Bool
  | .vMap _ => true
  | .vArr _ => true
  | _ => false

/-- Membership in `allPrimitives`' case list: `string, int32, int64,
float32, float64, json.Number`. -/
def Value.isPrimitive : Value → Bool
  | .vStr _ | .vInt32 _ | .vInt64 _ | .vFloat32 _ | .vFloat64 _ | .vNumber _ => true
  | _ => false

/-- A Scalar in the spec's sense: text, boolean, integer, floating-point
or "number" token (`bool` included, unlike `Value.isPrimitive`). -/
def Value.isScalar : Value → Bool
  | .vStr _ | .vBool _ | .vInt32 _ | .vInt64 _ | .vFloat32 _ | .vFloat64 _ | .vNumber _ => true
  | _ => false

mutual

/-- The (key, value) pairs the map-variant traversal stores, in
visitation order. -/
def mapLeaves (top : Bool) (pfx : String) (style : SeparatorStyle) :
    Value → List (String × Value)
  | .vMap kvs => mlMapGo top pfx style kvs
  | .vArr xs => mlArrGo top pfx style xs 0
  | _ => []
termination_by v => (sizeOf v, 0)

/-- The pairs stored by one `assign(newKey, v)` of the map variant. -/
def mlAssign (newKey : String) (v : Value) (style : SeparatorStyle) :
    List (String × Value) :=
  match v with
  | .vMap kvs => mapLeaves false newKey style (.vMap kvs)
  | .vArr xs =>
    if allPrimitives xs then [(newKey, .vArr xs)]
    else mapLeaves false newKey style (.vArr xs)
  | v => [(newKey, v)]
termination_by (sizeOf v, 1)

/-- Pairs stored while looping over a map's entries. -/
def mlMapGo (top : Bool) (pfx : String) (style : SeparatorStyle) :
    List (String × Value) → List (String × Value)
  | [] => []
  | (k, v) :: rest => mlAssign (enkey top pfx k style) v style ++ mlMapGo top pfx style rest
termination_by kvs => (sizeOf kvs, 0)

/-- Pairs stored while looping over a slice's elements. -/
def mlArrGo (top : Bool) (pfx : String) (style : SeparatorStyle) :
    List Value → Nat → List (String × Value)
  | [], _ => []
  | v :: rest, i =>
    mlAssign (enkey top pfx (toString i) style) v style ++ mlArrGo top pfx style rest (i + 1)
termination_by xs _ => (sizeOf xs, 0)

end

mutual

/-- The strings the list-variant traversal appends, in visitation order. -/
def listLeaves (top : Bool) (pfx : String) (style : SeparatorStyle) :
    Value → List String
  | .vMap kvs => llMapGo top pfx style kvs
  | .vArr xs => llArrGo top pfx style xs 0
  | _ => []
termination_by v => (sizeOf v, 0)

/-- The strings appended by one `assign(newKey, v)` of the list variant. -/
def llAssign (newKey : String) (v : Value) (style : SeparatorStyle) : List String :=
  match v with
  | .vMap kvs => listLeaves false newKey style (.vMap kvs)
  | .vArr xs => listLeaves false newKey style (.vArr xs)
  | v => [newKey ++ "." ++ render v]
termination_by (sizeOf v, 1)

/-- Strings appended while looping over a map's entries. -/
def llMapGo (top : Bool) (pfx : String) (style : SeparatorStyle) :
    List (String × Value) → List String
  | [] => []
  | (k, v) :: rest => llAssign (enkey top pfx k style) v style ++ llMapGo top pfx style rest
termination_by kvs => (sizeOf kvs, 0)

/-- Strings appended while looping over a slice's elements. -/
def llArrGo (top : Bool) (pfx : String) (style : SeparatorStyle) :
    List Value → Nat → List String
  | [], _ => []
  | v :: rest, i =>
    llAssign (enkey top pfx (toString i) style) v style ++ llArrGo top pfx style rest (i + 1)
termination_by xs _ => (sizeOf xs, 0)

end

theorem mapSetList_nil (fm : List (String × Value)) : mapSetList fm [] = fm := rfl

theorem mapSetList_append (fm : List (String × Value)) (a b : List (String × Value)) :
    mapSetList fm (a ++ b) = mapSetList (mapSetList fm a) b := by
  simp [mapSetList, List.foldl_append]

theorem mapSetList_singleton (fm : List (String × Value)) (k : String) (v : Value) :
    mapSetList fm [(k, v)] = mapSet fm k v := rfl

/-- The error component of the map-variant traversal is decided entirely
by the dynamic type of the current value: `nil` for maps and slices, the
`NotValidInputError` otherwise. -/
theorem flatten_snd (top : Bool) (fm : List (String × Value)) (nested : Value)
    (pfx : String) (style : SeparatorStyle) :
    (flatten top fm nested pfx style).2 =
      if nested.isComposite then none else some NotValidInputError := by
  cases nested <;> simp [flatten, Value.isComposite]

/-- Same fact for the list-variant traversal. -/
theorem flattenAll_snd (top : Bool) (res : List String) (nested : Value)
    (pfx : String) (style : SeparatorStyle) :
    (flattenAll top res nested pfx style).2 =
      if nested.isComposite then none else some NotValidInputError := by
  cases nested <;> simp [flattenAll, Value.isComposite]

mutual

/-- The accumulator produced by the map-variant traversal is the fold of
Go map assignment over the pure leaf enumeration. -/
theorem flatten_fst (top : Bool) (fm : List (String × Value)) (nested : Value)
    (pfx : String) (style : SeparatorStyle) :
    (flatten top fm nested pfx style).1 = mapSetList fm (mapLeaves top pfx style nested) := by
  cases nested with
  | vMap kvs =>
    simpa [flatten, mapLeaves] using flattenMapGo_eq top fm kvs pfx style
  | vArr xs =>
    simpa [flatten, mapLeaves] using flattenArrGo_eq top fm xs 0 pfx style
  | vStr s => simp [flatten, mapLeaves, mapSetList]
  | vBool b => simp [flatten, mapLeaves, mapSetList]
  | vInt32 n => simp [flatten, mapLeaves, mapSetList]
  | vInt64 n => simp [flatten, mapLeaves, mapSetList]
  | vFloat32 s => simp [flatten, mapLeaves, mapSetList]
  | vFloat64 s => simp [flatten, mapLeaves, mapSetList]
  | vNumber s => simp [flatten, mapLeaves, mapSetList]
  | vOther s => simp [flatten, mapLeaves, mapSetList]
termination_by (sizeOf nested, 0)

/-- One `assign` of the map variant folds its own pure enumeration into
the accumulator. -/
theorem flattenAssign_fst (fm : List (String × Value)) (newKey : String) (v : Value)
    (style : SeparatorStyle) :
    (flattenAssign fm newKey v style).1 = mapSetList fm (mlAssign newKey v style) := by
  cases v with
  | vMap kvs =>
    simpa [flattenAssign, mlAssign] using flatten_fst false fm (.vMap kvs) newKey style
  | vArr xs =>
    by_cases h : allPrimitives xs
    · simp [flattenAssign, mlAssign, h, mapSetList]
    · simpa [flattenAssign, mlAssign, h] using flatten_fst false fm (.vArr xs) newKey style
  | vStr s => simp [flattenAssign, mlAssign, mapSetList]
  | vBool b => simp [flattenAssign, mlAssign, mapSetList]
  | vInt32 n => simp [flattenAssign, mlAssign, mapSetList]
  | vInt64 n => simp [flattenAssign, mlAssign, mapSetList]
  | vFloat32 s => simp [flattenAssign, mlAssign, mapSetList]
  | vFloat64 s => simp [flattenAssign, mlAssign, mapSetList]
  | vNumber s => simp [flattenAssign, mlAssign, mapSetList]
  | vOther s => simp [flattenAssign, mlAssign, mapSetList]
termination_by (sizeOf v, 1)

/-- The map-entry loop of the map variant folds its pure enumeration. -/
theorem flattenMapGo_eq (top : Bool) (fm : List (String × Value))
    (kvs : List (String × Value)) (pfx : String) (style : SeparatorStyle) :
    flattenMapGo top fm kvs pfx style = mapSetList fm (mlMapGo top pfx style kvs) := by
  match kvs with
  | [] => simp [flattenMapGo, mlMapGo, mapSetList]
  | (k, v) :: rest =>
    rw [flattenMapGo, mlMapGo, mapSetList_append,
      flattenAssign_fst fm (enkey top pfx k style) v style]
    exact flattenMapGo_eq top _ rest pfx style
termination_by (sizeOf kvs, 0)

/-- The slice-element loop of the map variant folds its pure enumeration. -/
theorem flattenArrGo_eq (top : Bool) (fm : List (String × Value)) (xs : List Value)
    (i : Nat) (pfx : String) (style : SeparatorStyle) :
    flattenArrGo top fm xs i pfx style = mapSetList fm (mlArrGo top pfx style xs i) := by
  match xs with
  | [] => simp [flattenArrGo, mlArrGo, mapSetList]
  | v :: rest =>
    rw [flattenArrGo, mlArrGo, mapSetList_append,
      flattenAssign_fst fm (enkey top pfx (toString i) style) v style]
    exact flattenArrGo_eq top _ rest (i + 1) pfx style
termination_by (sizeOf xs, 0)

end

mutual

/-- The result slice produced by the list-variant traversal is the input
slice followed by the pure leaf enumeration. -/
theorem flattenAll_fst (top : Bool) (res : List String) (nested : Value)
    (pfx : String) (style : SeparatorStyle) :
    (flattenAll top res nested pfx style).1 = res ++ listLeaves top pfx style nested := by
  cases nested with
  | vMap kvs =>
    simpa [flattenAll, listLeaves] using faMapGo_eq top res kvs pfx style
  | vArr xs =>
    simpa [flattenAll, listLeaves] using faArrGo_eq top res xs 0 pfx style
  | vStr s => simp [flattenAll, listLeaves]
  | vBool b => simp [flattenAll, listLeaves]
  | vInt32 n => simp [flattenAll, listLeaves]
  | vInt64 n => simp [flattenAll, listLeaves]
  | vFloat32 s => simp [flattenAll, listLeaves]
  | vFloat64 s => simp [flattenAll, listLeaves]
  | vNumber s => simp [flattenAll, listLeaves]
  | vOther s => simp [flattenAll, listLeaves]
termination_by (sizeOf nested, 0)

/-- One `assign` of the list variant appends its own pure enumeration. -/
theorem faAssign_fst (res : List String) (newKey : String) (v : Value)
    (style : SeparatorStyle) :
    (faAssign res newKey v style).1 = res ++ llAssign newKey v style := by
  cases v with
  | vMap kvs =>
    simpa [faAssign, llAssign] using flattenAll_fst false res (.vMap kvs) newKey style
  | vArr xs =>
    simpa [faAssign, llAssign] using flattenAll_fst false res (.vArr xs) newKey style
  | vStr s => simp [faAssign, llAssign]
  | vBool b => simp [faAssign, llAssign]
  | vInt32 n => simp [faAssign, llAssign]
  | vInt64 n => simp [faAssign, llAssign]
  | vFloat32 s => simp [faAssign, llAssign]
  | vFloat64 s => simp [faAssign, llAssign]
  | vNumber s => simp [faAssign, llAssign]
  | vOther s => simp [faAssign, llAssign]
termination_by (sizeOf v, 1)

/-- The map-entry loop of the list variant appends its pure enumeration. -/
theorem faMapGo_eq (top : Bool) (res : List String) (kvs : List (String × Value))
    (pfx : String) (style : SeparatorStyle) :
    faMapGo top res kvs pfx style = res ++ llMapGo top pfx style kvs := by
  match kvs with
  | [] => simp [faMapGo, llMapGo]
  | (k, v) :: rest =>
    rw [faMapGo, llMapGo, ← List.append_assoc,
      ← faAssign_fst res (enkey top pfx k style) v style]
    exact faMapGo_eq top _ rest pfx style
termination_by (sizeOf kvs, 0)

/-- The slice-element loop of the list variant appends its pure
enumeration. -/
theorem faArrGo_eq (top : Bool) (res : List String) (xs : List Value) (i : Nat)
    (pfx : String) (style : SeparatorStyle) :
    faArrGo top res xs i pfx style = res ++ llArrGo top pfx style xs i := by
  match xs with
  | [] => simp [faArrGo, llArrGo]
  | v :: rest =>
    rw [faArrGo, llArrGo, ← List.append_assoc,
      ← faAssign_fst res (enkey top pfx (toString i) style) v style]
    exact faArrGo_eq top _ rest (i + 1) pfx style
termination_by (sizeOf xs, 0)

end

/-- Assigning a fresh key appends the binding. -/
theorem mapSet_of_not_mem (fm : List (String × Value)) (k : String) (v : Value)
    (h : k ∉ fm.map Prod.fst) : mapSet fm k v = fm ++ [(k, v)] := by
  simp only [mapSet]
  rw [if_neg]
  simpa using h

/-- Folding assignments whose keys are distinct and all fresh appends the
whole entry list. -/
theorem mapSetList_of_fresh (fm : List (String × Value)) (l : List (String × Value))
    (hnd : (l.map Prod.fst).Nodup) (hf : ∀ k ∈ l.map Prod.fst, k ∉ fm.map Prod.fst) :
    mapSetList fm l = fm ++ l := by
  induction l generalizing fm with
  | nil => simp [mapSetList]
  | cons p rest ih =>
    obtain ⟨k, v⟩ := p
    simp only [List.map_cons, List.nodup_cons] at hnd
    have hk : k ∉ fm.map Prod.fst := hf k (by simp)
    have step : mapSetList fm ((k, v) :: rest) = mapSetList (fm ++ [(k, v)]) rest := by
      simp [mapSetList, mapSet_of_not_mem fm k v hk]
    rw [step, ih (fm ++ [(k, v)]) hnd.2]
    · simp
    · intro k2 hk2
      have hk2' : k2 ∈ ((k, v) :: rest).map Prod.fst := by simp [hk2]
      simp only [List.map_append, List.mem_append]
      rintro (h2 | h2)
      · exact hf k2 hk2' h2
      · simp at h2
        exact hnd.1 (h2 ▸ hk2)

/-- With pairwise-distinct keys, folding assignments into the empty map
reproduces the entry list. -/
theorem mapSetList_nil_of_nodup (l : List (String × Value))
    (hnd : (l.map Prod.fst).Nodup) : mapSetList [] l = l := by
  simpa using mapSetList_of_fresh [] l hnd (by simp)

/-- `Flatten` in terms of the pure leaf enumeration. -/
theorem Flatten_eq (nested : List (String × Value)) (pfx : String)
    (style : SeparatorStyle) :
    Flatten nested pfx style = .ok (mapSetList [] (mlMapGo true pfx style nested)) := by
  have h1 : flatten true [] (.vMap nested) pfx style =
      (flattenMapGo true [] nested pfx style, none) := by
    simp [flatten]
  have h2 := flattenMapGo_eq true [] nested pfx style
  simp [Flatten, h1, h2]

/-- `FlattenAll` in terms of the pure leaf enumeration. -/
theorem FlattenAll_eq (nested : Value) (pfx : String) (style : SeparatorStyle)
    (sorted : Bool) (h : nested.isComposite = true) :
    FlattenAll nested pfx style sorted =
      .ok (if sorted then (listLeaves true pfx style nested).mergeSort (· ≤ ·)
           else listLeaves true pfx style nested) := by
  have h1 : flattenAll true [] nested pfx style =
      ((flattenAll true [] nested pfx style).1, none) := by
    have := flattenAll_snd true [] nested pfx style
    rw [h] at this
    simp at this
    exact Prod.ext_iff.mpr ⟨rfl, this⟩
  have h2 := flattenAll_fst true [] nested pfx style
  rw [FlattenAll, h1]
  simp [h2]

mutual

/-- A tree value containing only Scalars and nested Mappings (no
sequences, no other dynamic types). -/
def scalarMapOnly : Value → Bool
  | .vMap kvs => scalarMapOnlyKvs kvs
  | v => v.isScalar
termination_by v => sizeOf v

/-- `scalarMapOnly` over a map's entries. -/
def scalarMapOnlyKvs : List (String × Value) → Bool
  | [] => true
  | (_, v) :: rest => scalarMapOnly v && scalarMapOnlyKvs rest
termination_by kvs => sizeOf kvs

end

/-- Modelled from the spec: the "dot-joined path" of each leaf of a
Mapping containing only Scalars and nested Mappings, in entry order — the
top-level segment is the key itself (after the caller prefix, verbatim)
and every deeper segment is joined with `"."`. -/
def dotPathsKvs (p : String) (top : Bool) : List (String × Value) → List String
  | [] => []
  | (k, v) :: rest =>
    (match v with
     | .vMap kvs2 => dotPathsKvs (if top then p ++ k else p ++ "." ++ k) false kvs2
     | _ => [if top then p ++ k else p ++ "." ++ k]) ++ dotPathsKvs p top rest
termination_by kvs => sizeOf kvs

/-- Modelled from the spec: the number of leaves of a Mapping containing
only Scalars and nested Mappings. -/
def leafCountKvs : List (String × Value) → Nat
  | [] => 0
  | (_, v) :: rest =>
    (match v with
     | .vMap kvs2 => leafCountKvs kvs2
     | _ => 1) + leafCountKvs rest
termination_by kvs => sizeOf kvs

/-- `enkey` with `DotStyle` written as the spec's conditional join. -/
theorem enkey_dot (top : Bool) (p k : String) :
    enkey top p k DotStyle = if top then p ++ k else p ++ "." ++ k := by
  cases top <;> simp [enkey]

/-- On scalar/map-only trees, the keys the map variant stores under
`DotStyle` are exactly the spec's dot-joined leaf paths, one per leaf. -/
theorem mlMapGo_dot_spec (kvs : List (String × Value)) (p : String) (top : Bool)
    (h : scalarMapOnlyKvs kvs = true) :
    (mlMapGo top p DotStyle kvs).map Prod.fst = dotPathsKvs p top kvs ∧
    (mlMapGo top p DotStyle kvs).length = leafCountKvs kvs := by
  match kvs with
  | [] => simp [mlMapGo, dotPathsKvs, leafCountKvs]
  | (k, v) :: rest =>
    simp only [scalarMapOnlyKvs, Bool.and_eq_true] at h
    have hrest := mlMapGo_dot_spec rest p top h.2
    cases v with
    | vMap kvs2 =>
      have h2 : scalarMapOnlyKvs kvs2 = true := by
        have h1 := h.1
        simpa [scalarMapOnly] using h1
      have hsub := mlMapGo_dot_spec kvs2 (if top then p ++ k else p ++ "." ++ k) false h2
      constructor
      · rw [mlMapGo, dotPathsKvs]
        simp only [List.map_append]
        rw [hrest.1]
        congr 1
        simpa [mlAssign, mapLeaves, enkey_dot] using hsub.1
      · rw [mlMapGo, leafCountKvs]
        simp only [List.length_append]
        rw [hrest.2]
        congr 1
        simpa [mlAssign, mapLeaves, enkey_dot] using hsub.2
    | vArr xs =>
      exfalso
      have h1 := h.1
      simp [scalarMapOnly, Value.isScalar] at h1
    | vOther s =>
      exfalso
      have h1 := h.1
      simp [scalarMapOnly, Value.isScalar] at h1
    | vStr s =>
      refine ⟨?_, ?_⟩
      · simp [mlMapGo, dotPathsKvs, mlAssign, enkey_dot, hrest.1]
      · simp [mlMapGo, leafCountKvs, mlAssign, hrest.2]
        omega
    | vBool b =>
      refine ⟨?_, ?_⟩
      · simp [mlMapGo, dotPathsKvs, mlAssign, enkey_dot, hrest.1]
      · simp [mlMapGo, leafCountKvs, mlAssign, hrest.2]
        omega
    | vInt32 n =>
      refine ⟨?_, ?_⟩
      · simp [mlMapGo, dotPathsKvs, mlAssign, enkey_dot, hrest.1]
      · simp [mlMapGo, leafCountKvs, mlAssign, hrest.2]
        omega
    | vInt64 n =>
      refine ⟨?_, ?_⟩
      · simp [mlMapGo, dotPathsKvs, mlAssign, enkey_dot, hrest.1]
      · simp [mlMapGo, leafCountKvs, mlAssign, hrest.2]
        omega
    | vFloat32 s =>
      refine ⟨?_, ?_⟩
      · simp [mlMapGo, dotPathsKvs, mlAssign, enkey_dot, hrest.1]
      · simp [mlMapGo, leafCountKvs, mlAssign, hrest.2]
        omega
    | vFloat64 s =>
      refine ⟨?_, ?_⟩
      · simp [mlMapGo, dotPathsKvs, mlAssign, enkey_dot, hrest.1]
      · simp [mlMapGo, leafCountKvs, mlAssign, hrest.2]
        omega
    | vNumber s =>
      refine ⟨?_, ?_⟩
      · simp [mlMapGo, dotPathsKvs, mlAssign, enkey_dot, hrest.1]
      · simp [mlMapGo, leafCountKvs, mlAssign, hrest.2]
        omega
termination_by sizeOf kvs

/-- `allPrimitives` is the pointwise test for the six case-listed dynamic
types. -/
theorem allPrimitives_iff (xs : List Value) :
    allPrimitives xs = true ↔ ∀ v ∈ xs, v.isPrimitive = true := by
  induction xs with
  | nil => simp [allPrimitives]
  | cons v rest ih =>
    cases v <;> simp_all [allPrimitives, Value.isPrimitive]

/-- On a depth-1 map whose values are all scalars and with empty prefix,
the map variant's leaf enumeration is the map itself, for every style. -/
theorem mlMapGo_flat (kvs : List (String × Value)) (style : SeparatorStyle)
    (h : ∀ q ∈ kvs, q.2.isScalar = true) :
    mlMapGo true "" style kvs = kvs := by
  induction kvs with
  | nil => simp [mlMapGo]
  | cons q rest ih =>
    obtain ⟨k, v⟩ := q
    have hv : v.isScalar = true := h (k, v) (by simp)
    have hrest : ∀ q ∈ rest, q.2.isScalar = true := fun q hq => h q (by simp [hq])
    have hk : enkey true "" k style = k := by
      simp [enkey, String.empty_append]
    have ihr := ih hrest
    cases v with
    | vMap kvs2 => simp [Value.isScalar] at hv
    | vArr xs => simp [Value.isScalar] at hv
    | vOther s => simp [Value.isScalar] at hv
    | vStr s => simp [mlMapGo, mlAssign, hk, ihr]
    | vBool b => simp [mlMapGo, mlAssign, hk, ihr]
    | vInt32 n => simp [mlMapGo, mlAssign, hk, ihr]
    | vInt64 n => simp [mlMapGo, mlAssign, hk, ihr]
    | vFloat32 s => simp [mlMapGo, mlAssign, hk, ihr]
    | vFloat64 s => simp [mlMapGo, mlAssign, hk, ihr]
    | vNumber s => simp [mlMapGo, mlAssign, hk, ihr]

/-- On a slice of scalars, the list variant's leaf enumeration has one
entry per element, indexed from `i`. -/
theorem llArrGo_scalar (newKey : String) (style : SeparatorStyle) (xs : List Value)
    (i : Nat) (h : ∀ u ∈ xs, u.isScalar = true) :
    llArrGo false newKey style xs i =
      (xs.enumFrom i).map fun q => enkey false newKey (toString q.1) style ++ "." ++ render q.2 := by
  induction xs generalizing i with
  | nil => simp [llArrGo]
  | cons u rest ih =>
    have hu : u.isScalar = true := h u (by simp)
    have hrest : ∀ u2 ∈ rest, u2.isScalar = true :=
      fun u2 h2 => h u2 (List.mem_cons_of_mem _ h2)
    have ihr := ih (i + 1) hrest
    cases u <;> simp_all [llArrGo, llAssign, Value.isScalar, List.enumFrom]

/-- `mergeSort` of a two-element list with equal elements, for any
comparison. -/
theorem mergeSort_pair_eq (x : String) (le : String → String → Bool) :
    ([x, x] : List String).mergeSort le = [x, x] := by
  have hp := List.mergeSort_perm ([x, x] : List String) le
  have hrep : ([x, x] : List String) = List.replicate 2 x := rfl
  rw [hrep] at hp ⊢
  exact List.perm_replicate.mp hp

/-- `mergeSort` of a singleton, for any comparison. -/
theorem mergeSort_single_eq (x : String) (le : String → String → Bool) :
    ([x] : List String).mergeSort le = [x] := by
  have hp := List.mergeSort_perm ([x] : List String) le
  have hrep : ([x] : List String) = List.replicate 1 x := rfl
  rw [hrep] at hp ⊢
  exact List.perm_replicate.mp hp

/-! ## Claim theorems -/

/-- Claim C1, counterexample: on the package-doc input
`{"one":{"two":["2a","2b"]}, "side":"value"}` with Dot style and empty
prefix, the map variant does NOT return the claimed mapping
`{"one.two.0":"2a", "one.two.1":"2b", "side":"value"}`: the all-string
sequence `["2a","2b"]` passes `allPrimitives`, so it is stored whole
under `"one.two"` and the returned flat map has no key `"one.two.0"`. -/
theorem C1_counterexample :
    Flatten [("one", .vMap [("two", .vArr [.vStr "2a", .vStr "2b"])]),
        ("side", .vStr "value")] "" DotStyle =
      .ok [("one.two", .vArr [.vStr "2a", .vStr "2b"]), ("side", .vStr "value")] ∧
    ([("one.two", Value.vArr [.vStr "2a", .vStr "2b"]),
        ("side", Value.vStr "value")].lookup "one.two.0" = (none : Option Value)) := by
  constructor
  · simp [Flatten, flatten, flattenMapGo, flattenArrGo, flattenAssign, allPrimitives,
      mapSet, enkey, DotStyle, SlashStyle, RailsStyle]
  · simp [List.lookup]

/-- Claim C1, amended: flattening `{"one":{"two":["2a","2b"]},
"side":"value"}` with Dot style and empty prefix returns
`{"one.two": ["2a","2b"], "side": "value"}` — the all-scalar sequence is
kept intact as a single value (the leaf-array exception), contrary to the
package-doc example. -/
theorem C1_theorem :
    Flatten [("one", .vMap [("two", .vArr [.vStr "2a", .vStr "2b"])]),
        ("side", .vStr "value")] "" DotStyle =
      .ok [("one.two", .vArr [.vStr "2a", .vStr "2b"]), ("side", .vStr "value")] := by
  simp [Flatten, flatten, flattenMapGo, flattenArrGo, flattenAssign, allPrimitives,
    mapSet, enkey, DotStyle, SlashStyle, RailsStyle]

/-- Claim C2, counterexample: `[true, false]` is a Sequence all of whose
elements are Scalars (booleans), yet the map variant flattens it
element-by-element — the result binds `"k.0"` and `"k.1"` and has no
binding for the sequence's own key `"k"` — because `bool` is not in
`allPrimitives`' case list. -/
theorem C2_counterexample :
    Flatten [("k", .vArr [.vBool true, .vBool false])] "" DotStyle =
      .ok [("k.0", .vBool true), ("k.1", .vBool false)] ∧
    ([("k.0", Value.vBool true), ("k.1", Value.vBool false)].lookup "k"
      = (none : Option Value)) := by
  constructor
  · have ht0 : toString (0 : Nat) = "0" := rfl
    have ht1 : toString (1 : Nat) = "1" := rfl
    simp [Flatten, flatten, flattenMapGo, flattenArrGo, flattenAssign, allPrimitives,
      mapSet, enkey, DotStyle, SlashStyle, RailsStyle, ht0, ht1]
  · simp [List.lookup]

/-- Claim C2, amended: in the map variant, a Sequence is stored whole
under its one encoded key iff every element's dynamic type is one of
`string, int32, int64, float32, float64, json.Number` (booleans, other
integer widths and all other types are not recognized); any other
Sequence — in particular one containing a nested Mapping or Sequence —
is flattened element-by-element, producing exactly the pairs of its leaf
enumeration `mapLeaves` (one entry per reachable leaf). -/
theorem C2_theorem (fm : List (String × Value)) (newKey : String) (xs : List Value)
    (style : SeparatorStyle) :
    (allPrimitives xs = true ↔ ∀ v ∈ xs, v.isPrimitive = true) ∧
    ((∃ v ∈ xs, v.isComposite = true) → allPrimitives xs = false) ∧
    (allPrimitives xs = true →
      flattenAssign fm newKey (.vArr xs) style = (mapSet fm newKey (.vArr xs), none)) ∧
    (allPrimitives xs = false →
      (flattenAssign fm newKey (.vArr xs) style).1 =
        mapSetList fm (mapLeaves false newKey style (.vArr xs))) := by
  refine ⟨allPrimitives_iff xs, ?_, ?_, ?_⟩
  · rintro ⟨v, hv, hc⟩
    cases hp : allPrimitives xs
    · rfl
    · exfalso
      have := (allPrimitives_iff xs).mp hp v hv
      cases v <;> simp_all [Value.isPrimitive, Value.isComposite]
  · intro hp
    simp [flattenAssign, hp]
  · intro hp
    have h1 := flattenAssign_fst fm newKey (.vArr xs) style
    rw [h1]
    congr 1
    simp [mlAssign, mapLeaves, hp]

/-- Claim C2, witness: instantiating the amended claim — `["a"]` (all
primitive) is stored whole; `[true]` (boolean) is flattened via its leaf
enumeration. -/
theorem C2_witness :
    flattenAssign [] "k" (.vArr [.vStr "a"]) DotStyle =
      (mapSet [] "k" (.vArr [.vStr "a"]), none) ∧
    (flattenAssign [] "k2" (.vArr [.vBool true]) DotStyle).1 =
      mapSetList [] (mapLeaves false "k2" DotStyle (.vArr [.vBool true])) :=
  ⟨(C2_theorem [] "k" [.vStr "a"] DotStyle).2.2.1 rfl,
   (C2_theorem [] "k2" [.vBool true] DotStyle).2.2.2 rfl⟩

/-- Claim C3, counterexample: a value at depth 1 whose dynamic type is
none of Mapping, Sequence or Scalar (a struct, modelled by `vOther`) does
not abort the traversal with `NotValidInputError`: the map variant
succeeds and stores it as a leaf, because the `assign` error is discarded
and `assign` only recurses into maps and slices. -/
theorem C3_counterexample :
    Flatten [("k", .vOther "struct value")] "" DotStyle =
      .ok [("k", .vOther "struct value")] := by
  simp [Flatten, flatten, flattenMapGo, flattenAssign, mapSet, enkey]

/-- Claim C3, amended: `NotValidInputError` is returned iff the TOP-LEVEL
value is neither a Mapping nor a Sequence (so a bare Scalar at top level
also errors); below the top level a value that is neither a Mapping nor
a Sequence — whatever its kind — is stored (map variant) or emitted
(list variant) as a leaf with a nil error. -/
theorem C3_theorem (nested : Value) (fm : List (String × Value)) (res : List String)
    (k pfx : String) (v : Value) (style : SeparatorStyle) :
    ((flatten true fm nested pfx style).2 = some NotValidInputError ↔
      nested.isComposite = false) ∧
    ((flattenAll true res nested pfx style).2 = some NotValidInputError ↔
      nested.isComposite = false) ∧
    (v.isComposite = false →
      flattenAssign fm k v style = (mapSet fm k v, none) ∧
      faAssign res k v style = (res ++ [k ++ "." ++ render v], none)) := by
  refine ⟨?_, ?_, ?_⟩
  · rw [flatten_snd]
    cases h : nested.isComposite <;> simp
  · rw [flattenAll_snd]
    cases h : nested.isComposite <;> simp
  · intro hv
    cases v <;> simp_all [Value.isComposite, flattenAssign, faAssign]

/-- Claim C3, witness: instantiating the amended claim at a bare scalar
top level (errors) and a non-scalar depth-1 value (stored/emitted). -/
theorem C3_witness :
    flattenAssign [] "w" (.vOther "t") DotStyle = (mapSet [] "w" (.vOther "t"), none) ∧
    faAssign [] "w" (.vOther "t") DotStyle =
      ([] ++ ["w" ++ "." ++ render (.vOther "t")], none) :=
  (C3_theorem (.vStr "s") [] [] "w" "" (.vOther "t") DotStyle).2.2 rfl

/-- Claim C4: in the list variant, `assign` recurses into every Mapping
and every Sequence unconditionally (there is no all-scalar exception:
the result is always the full leaf enumeration of the composite), and a
Scalar leaf contributes exactly one text entry
`childPath ++ "." ++ render(value)`; in particular an all-scalar Sequence
produces one list entry per element. -/
theorem C4_theorem (res : List String) (newKey : String) (style : SeparatorStyle)
    (kvs : List (String × Value)) (xs : List Value) (v : Value) :
    ((faAssign res newKey (.vMap kvs) style).1 =
      res ++ listLeaves false newKey style (.vMap kvs)) ∧
    ((faAssign res newKey (.vArr xs) style).1 =
      res ++ listLeaves false newKey style (.vArr xs)) ∧
    (v.isScalar = true →
      faAssign res newKey v style = (res ++ [newKey ++ "." ++ render v], none)) ∧
    ((∀ u ∈ xs, u.isScalar = true) →
      (faAssign res newKey (.vArr xs) style).1 =
        res ++ xs.enum.map fun q =>
          enkey false newKey (toString q.1) style ++ "." ++ render q.2) := by
  refine ⟨?_, ?_, ?_, ?_⟩
  · rw [faAssign_fst]
    simp [llAssign]
  · rw [faAssign_fst]
    simp [llAssign]
  · intro hv
    cases v <;> simp_all [Value.isScalar, faAssign]
  · intro h
    rw [faAssign_fst]
    have h1 : llAssign newKey (.vArr xs) style = llArrGo false newKey style xs 0 := by
      simp [llAssign, listLeaves]
    rw [h1, llArrGo_scalar newKey style xs 0 h]
    rfl

/-- Claim C4, witness: a scalar leaf emits one entry; the all-scalar
sequence `["x", true]` emits one entry per element (not one entry for the
whole array). -/
theorem C4_witness :
    faAssign [] "w" (.vStr "x") DotStyle =
      ([] ++ ["w" ++ "." ++ render (.vStr "x")], none) ∧
    (faAssign [] "w" (.vArr [.vStr "x", .vBool true]) DotStyle).1 =
      [] ++ ([Value.vStr "x", Value.vBool true].enum.map fun q =>
        enkey false "w" (toString q.1) DotStyle ++ "." ++ render q.2) :=
  ⟨(C4_theorem [] "w" DotStyle [] [] (.vStr "x")).2.2.1 rfl,
   (C4_theorem [] "w" DotStyle [] [.vStr "x", .vBool true] (.vStr "x")).2.2.2
     (by simp [Value.isScalar])⟩

/-- Claim C5: the key encoder returns `parentPath ++ childKey` verbatim at
top level for every style, and below top level joins with `"."` (Dot),
`"/"` (Slash) or `"[" ... "]"` (Rails); consequently, with prefix `"p:"`
and Dot style, `Flatten` yields `"p:" ++ topKey` for a top-level scalar
and `"p:" ++ topKey ++ "." ++ childKey` for a nested one. -/
theorem C5_theorem (pfx sub k1 k2 ck a b : String) (style : SeparatorStyle) :
    enkey true pfx sub style = pfx ++ sub ∧
    enkey false pfx sub DotStyle = pfx ++ "." ++ sub ∧
    enkey false pfx sub SlashStyle = pfx ++ "/" ++ sub ∧
    enkey false pfx sub RailsStyle = pfx ++ "[" ++ sub ++ "]" ∧
    ("p:" ++ k1 ≠ "p:" ++ k2 ++ "." ++ ck →
      Flatten [(k1, .vStr a), (k2, .vMap [(ck, .vStr b)])] "p:" DotStyle =
        .ok [("p:" ++ k1, .vStr a), ("p:" ++ k2 ++ "." ++ ck, .vStr b)]) := by
  refine ⟨by simp [enkey], by simp [enkey], ?_, ?_, ?_⟩
  · simp [enkey, DotStyle, SlashStyle, RailsStyle, SeparatorStyle.mk.injEq]
  · simp [enkey, DotStyle, SlashStyle, RailsStyle, SeparatorStyle.mk.injEq]
  · intro h
    rw [Flatten_eq]
    have hleaves : mlMapGo true "p:" DotStyle [(k1, .vStr a), (k2, .vMap [(ck, .vStr b)])] =
        [("p:" ++ k1, .vStr a), ("p:" ++ k2 ++ "." ++ ck, .vStr b)] := by
      simp [mlMapGo, mlAssign, mapLeaves, enkey]
    rw [hleaves, mapSetList_nil_of_nodup]
    simp [h]

/-- Claim C5, witness: the nested-prefix consequence at concrete keys. -/
theorem C5_witness :
    Flatten [("a", .vStr "x"), ("b", .vMap [("c", .vStr "y")])] "p:" DotStyle =
      .ok [("p:" ++ "a", .vStr "x"), ("p:" ++ "b" ++ "." ++ "c", .vStr "y")] :=
  ( C5_theorem "p" "s" "a" "b" "c" "x" "y" DotStyle).2.2.2.2 (by decide)

/-- Claim C6, counterexample: a non-top-level key encoding with the
zero/unset style value is NOT the top-level "append with no separator"
behavior: the child key is dropped entirely and the parent path alone is
returned (`enkey false "par" "child" 0 = "par"`, not `"parchild"`). -/
theorem C6_counterexample :
    enkey false "par" "child" ⟨0⟩ = "par" ∧
    enkey false "par" "child" ⟨0⟩ ≠ "par" ++ "child" := by
  constructor
  · rfl
  · decide

/-- Claim C6, amended: for every style value other than Dot (1), Slash
(2) and Rails (3), a non-top-level key-encoding call is not rejected but
returns the parent path unchanged: the child key is silently discarded
(no branch of the `switch` runs), which differs from the top-level case,
where the child key is appended. -/
theorem C6_theorem (pfx sub : String) (style : SeparatorStyle)
    (h1 : style ≠ DotStyle) (h2 : style ≠ SlashStyle) (h3 : style ≠ RailsStyle) :
    enkey false pfx sub style = pfx := by
  simp [enkey, h1, h2, h3]

/-- Claim C6, witness: the amended claim at the zero/unset style value. -/
theorem C6_witness : enkey false "a" "b" ⟨0⟩ = "a" :=
  C6_theorem "a" "b" ⟨0⟩ (by decide) (by decide) (by decide)

/-- Claim C7, counterexample: `flattenAll` with `sorted=true` is not
strictly ascending on every valid input: the valid map
`{"a": {"b": "c"}, "a.b": "c"}` yields two identical entries `"a.b.c"`
(two distinct nested paths encode to the same text), and `sort.Strings`
keeps duplicates, so the result is not strictly increasing. -/
theorem C7_counterexample :
    FlattenAll (.vMap [("a", .vMap [("b", .vStr "c")]), ("a.b", .vStr "c")])
        "" DotStyle true = .ok ["a.b.c", "a.b.c"] ∧
    ¬ List.Sorted (· < ·) ["a.b.c", ("a.b.c" : String)] := by
  constructor
  · rw [FlattenAll_eq (.vMap [("a", .vMap [("b", .vStr "c")]), ("a.b", .vStr "c")])
      "" DotStyle true rfl]
    have hleaves : listLeaves true "" DotStyle
        (.vMap [("a", .vMap [("b", .vStr "c")]), ("a.b", .vStr "c")]) =
        ["a.b.c", "a.b.c"] := by
      simp [listLeaves, llMapGo, llAssign, render, enkey, DotStyle, SlashStyle, RailsStyle]
    rw [hleaves, if_pos rfl, mergeSort_pair_eq]
  · intro hs
    rw [List.sorted_cons] at hs
    exact lt_irrefl _ (hs.1 _ (by simp))

/-- Claim C7, amended: for every input, prefix and style, a successful
`FlattenAll` with `sorted=true` returns a sequence in nondecreasing
(weakly ascending) lexicographic order; duplicates may occur when two
distinct paths encode to the same text, so the order is not strict in
general. -/
theorem C7_theorem (nested : Value) (pfx : String) (style : SeparatorStyle)
    (l : List String) (h : FlattenAll nested pfx style true = .ok l) :
    l.Sorted (· ≤ ·) := by
  unfold FlattenAll at h
  rcases hfa : flattenAll true [] nested pfx style with ⟨r, e⟩
  rw [hfa] at h
  cases e with
  | some err => simp at h
  | none =>
    simp only [if_true, Except.ok.injEq] at h
    rw [← h]
    exact List.sorted_mergeSort' r

/-- Claim C7, witness: the amended claim at the input `{"a": "x"}`. -/
theorem C7_witness : List.Sorted (· ≤ ·) ["a.x"] :=
  C7_theorem (.vMap [("a", .vStr "x")]) "" DotStyle ["a.x"] (by
    rw [FlattenAll_eq (.vMap [("a", .vStr "x")]) "" DotStyle true rfl]
    have hleaves : listLeaves true "" DotStyle (.vMap [("a", .vStr "x")]) = ["a.x"] := by
      simp [listLeaves, llMapGo, llAssign, render, enkey]
    rw [hleaves, if_pos rfl, mergeSort_single_eq])

/-- Claim C8: flattening an already-flat Mapping (depth 1, all values
Scalars) with any separator style and empty prefix returns it unchanged:
every key is a top-level key, so no connective is inserted. -/
theorem C8_theorem (kvs : List (String × Value)) (style : SeparatorStyle)
    (hnd : (kvs.map Prod.fst).Nodup) (hs : ∀ q ∈ kvs, q.2.isScalar = true) :
    Flatten kvs "" style = .ok kvs := by
  rw [Flatten_eq, mlMapGo_flat kvs style hs, mapSetList_nil_of_nodup kvs hnd]

/-- Claim C8, witness: a concrete flat map is returned unchanged, here
under Rails style. -/
theorem C8_witness :
    Flatten [("a", .vStr "x"), ("b", .vBool true)] "" RailsStyle =
      .ok [("a", .vStr "x"), ("b", .vBool true)] :=
  C8_theorem [("a", .vStr "x"), ("b", .vBool true)] RailsStyle (by decide)
    (by simp [Value.isScalar])

/-- Claim C9, counterexample: on a Mapping containing only Scalars and
nested Mappings the Text API need not produce one flat entry per leaf:
in `{"a": {"b": "c"}, "a.b": "d"}` the two leaves' dot-joined paths
collide, the later entry overwrites the earlier, and the flat mapping
handed to the serializer has 1 entry for 2 leaves. -/
theorem C9_counterexample :
    FlattenString
      (fun s => if s = "in" then
        some [("a", Value.vMap [("b", Value.vStr "c")]), ("a.b", Value.vStr "d")]
        else none)
      (fun fl => toString fl.length) "in" "" DotStyle = .ok "1" ∧
    leafCountKvs [("a", Value.vMap [("b", Value.vStr "c")]), ("a.b", Value.vStr "d")] = 2 := by
  constructor
  · have hflat : Flatten [("a", Value.vMap [("b", Value.vStr "c")]),
        ("a.b", Value.vStr "d")] "" DotStyle = .ok [("a.b", Value.vStr "d")] := by
      simp [Flatten, flatten, flattenMapGo, flattenAssign, mapSet, enkey,
        DotStyle, SlashStyle, RailsStyle]
    have h1 : toString (1 : Nat) = "1" := rfl
    simp [FlattenString, hflat, h1]
  · simp [leafCountKvs]

/-- Claim C9, amended: for a Mapping containing only Scalars and nested
Mappings whose leaves' dot-joined paths are pairwise distinct, the Text
API (with a successful decode and the external serializer) produces a
flat mapping with exactly one entry per leaf, keyed by the dot-joined
path of that leaf. -/
theorem C9_theorem (unmarshal : String → Option (List (String × Value)))
    (marshal : List (String × Value) → String) (m : List (String × Value)) (s : String)
    (hdec : unmarshal s = some m)
    (htree : scalarMapOnlyKvs m = true)
    (hnd : (dotPathsKvs "" true m).Nodup) :
    ∃ fl, FlattenString unmarshal marshal s "" DotStyle = .ok (marshal fl) ∧
      fl.map Prod.fst = dotPathsKvs "" true m ∧
      fl.length = leafCountKvs m := by
  have hmain := mlMapGo_dot_spec m "" true htree
  refine ⟨mlMapGo true "" DotStyle m, ?_, hmain.1, hmain.2⟩
  have hset : mapSetList [] (mlMapGo true "" DotStyle m) = mlMapGo true "" DotStyle m :=
    mapSetList_nil_of_nodup _ (by rw [hmain.1]; exact hnd)
  have hflat : Flatten m "" DotStyle = .ok (mlMapGo true "" DotStyle m) := by
    rw [Flatten_eq, hset]
  simp [FlattenString, hdec, hflat]

/-- Claim C9, witness: the amended claim at `{"a": {"b": "c"}}` with a
concrete decode/encode pair. -/
theorem C9_witness :
    ∃ fl : List (String × Value), FlattenString
        (fun s => if s = "in" then some [("a", Value.vMap [("b", Value.vStr "c")])] else none)
        (fun _ => "out") "in" "" DotStyle = .ok ((fun _ => "out") fl) ∧
      fl.map Prod.fst = dotPathsKvs "" true [("a", Value.vMap [("b", Value.vStr "c")])] ∧
      fl.length = leafCountKvs [("a", Value.vMap [("b", Value.vStr "c")])] :=
  C9_theorem _ _ [("a", Value.vMap [("b", Value.vStr "c")])] "in" (by simp)
    (by simp [scalarMapOnlyKvs, scalarMapOnly, Value.isScalar])
    (by simp [dotPathsKvs])

/-- Claim C10: the error of the inner `assign` closure is discarded at
every call site, so `NotValidInputError` can only arise for the top-level
argument: `Flatten`, whose parameter is statically a map, returns a nil
error for every input (including the nil/empty map), and a value below
the top level that is neither a Mapping nor a Sequence (here a `vOther`,
e.g. a struct) is stored by the map variant and emitted by the list
variant as a leaf with a nil error. -/
theorem C10_theorem (kvs : List (String × Value)) (pfx k t : String)
    (style : SeparatorStyle) (fm : List (String × Value)) (res : List String) :
    (∃ fl, Flatten kvs pfx style = .ok fl) ∧
    flattenAssign fm k (.vOther t) style = (mapSet fm k (.vOther t), none) ∧
    faAssign res k (.vOther t) style = (res ++ [k ++ "." ++ render (.vOther t)], none) := by
  refine ⟨⟨mapSetList [] (mlMapGo true pfx style kvs), Flatten_eq kvs pfx style⟩, ?_, ?_⟩
  · simp [flattenAssign]
  · simp [faAssign]
